import Mathlib

/-!
Verification of the streaming chat transcript assembler of the
Justice Path repository (`src/components/ChatInterface.tsx`).

Strings of the TypeScript source are embedded as lists of characters
(`Str`).  The nested `while` loops of `handleSend` (lines 144-174) are
embedded as fuel-indexed structural recursions (`innerF`, `outerF`)
together with total wrappers (`innerLoop`, `outerLoop`, `processStream`)
that supply provably sufficient fuel; theorem `processStreamF_adequate`
shows the fuel bound is enough, which is exactly the termination claim
for the nested loops.  External collaborators (the JSON parser, the
Supabase auth/insert calls, the fetch transport) are parameters of the
model, as they are not code of this repository.
-/

namespace JusticePath

/-- Characters of a JavaScript string; chunks, lines and buffers. -/
abbrev Str := List Char

/-- Whitespace test used by `String.prototype.trim`. -/
def isWs (c : Char) : Bool :=
  c == ' ' || c == '\t' || c == '\n' || c == '\r' || c == '\x0b' || c == '\x0c'

/-- Embedding of `s.trim()`: drop whitespace from both ends. -/
def trimL (s : Str) : Str :=
  ((s.dropWhile isWs).reverse.dropWhile isWs).reverse

/-- Embedding of line 155, `if (line.endsWith("\r")) line = line.slice(0, -1)`:
strip one trailing carriage return. -/
def stripCR (s : Str) : Str :=
  if s.getLast? = some '\r' then s.dropLast else s

/-- Embedding of `s.startsWith(p)`. -/
def startsWithL : Str → Str → Bool
  | [], _ => true
  | _ :: _, [] => false
  | p :: ps, c :: cs => p == c && startsWithL ps cs

/-- The literal prefix `"data: "` of line 157. -/
def dataTag : Str := ['d', 'a', 't', 'a', ':', ' ']

/-- The literal comment marker `":"` of line 156. -/
def colonTag : Str := [':']

/-- The literal sentinel `"[DONE]"` of line 160. -/
def doneStr : Str := ['[', 'D', 'O', 'N', 'E', ']']

/-- Embedding of `textBuffer.indexOf("\n")` combined with the two `slice`
calls of lines 151-153: split the buffer at its first line feed into the
line before it and the rest after it; `none` when no line feed occurs. -/
def findNewline : Str → Option (Str × Str)
  | [] => none
  | c :: cs =>
    if c = '\n' then some ([], cs)
    else
      match findNewline cs with
      | some (l, r) => some (c :: l, r)
      | none => none

/-- Outcome of `JSON.parse(jsonStr)` followed by the extraction
`parsed.choices?.[0]?.delta?.content` (lines 163-164).  `JSON.parse` is a
JavaScript built-in, external to this repository, so it is a parameter of
the model: `.error ()` is a thrown parse exception, `.ok none` a parse
that yields no string at the nested path, `.ok (some c)` the extracted
content string. -/
abbrev JsonOracle := Str → Except Unit (Option Str)

/-- How one pass of the inner `while` loop of lines 151-173 ended. -/
inductive InnerExit where
  /-- `textBuffer.indexOf("\n")` returned `-1`: the buffer holds no
  complete line. -/
  | exhausted
  /-- A `data:` line carried the `[DONE]` sentinel (line 160). -/
  | doneSig
  /-- `JSON.parse` threw and the line was pushed back (lines 169-172). -/
  | parseFail
deriving DecidableEq, Repr

/-- State left by one pass of the inner loop: the carry-over buffer, the
`assistantMessage` accumulator, every snapshot passed to `setMessages`
so far, and how the pass ended. -/
structure InnerResult where
  buffer : Str
  acc : Str
  emits : List Str
  exit : InnerExit
deriving DecidableEq, Repr

/-- Fuel-indexed embedding of the inner `while` loop of lines 151-173 of
`handleSend`.  Each iteration splits the buffer at its first line feed,
strips a trailing carriage return, skips comment/blank/non-`data:` lines,
stops on the `[DONE]` sentinel, and otherwise consults the JSON oracle:
a parse exception pushes the line back with a re-inserted line feed and
exits the pass; an extracted non-empty content is appended to the
accumulator and a snapshot is emitted.  `none` means the fuel ran out
before the loop exited. -/
def innerF (P : JsonOracle) : Nat → Str → Str → List Str → Option InnerResult
  | 0, _, _, _ => none
  | n + 1, buf, acc, emits =>
    match findNewline buf with
    | none => some ⟨buf, acc, emits, .exhausted⟩
    | some (line0, rest) =>
      let line := stripCR line0
      if startsWithL colonTag line then innerF P n rest acc emits
      else if trimL line = [] then innerF P n rest acc emits
      else if startsWithL dataTag line then
        let jsonStr := trimL (line.drop 6)
        if jsonStr = doneStr then some ⟨rest, acc, emits, .doneSig⟩
        else
          match P jsonStr with
          | .error _ => some ⟨line ++ '\n' :: rest, acc, emits, .parseFail⟩
          | .ok none => innerF P n rest acc emits
          | .ok (some c) =>
            if c = [] then innerF P n rest acc emits
            else innerF P n rest (acc ++ c) (emits ++ [acc ++ c])
      else innerF P n rest acc emits

/-- Total inner loop: run `innerF` with fuel `buf.length + 1`, which
`innerF_adequate` proves sufficient (the default value is unreachable). -/
def innerLoop (P : JsonOracle) (buf acc : Str) (emits : List Str) : InnerResult :=
  (innerF P (buf.length + 1) buf acc emits).getD ⟨buf, acc, emits, .exhausted⟩

/-- Final state of the stream-consumption loop: the accumulated
`assistantMessage` and every snapshot passed to `setMessages`. -/
structure StreamResult where
  assistantMessage : Str
  emits : List Str
deriving DecidableEq, Repr

/-- Embedding of the outer `while (true)` loop of lines 144-174: each
iteration appends the next decoded chunk to the carry-over buffer and
runs one pass of the inner loop; `done` from the reader exits the loop,
discarding any unterminated remainder in the buffer. -/
def outerLoop (P : JsonOracle) : List Str → Str → Str → List Str → StreamResult
  | [], _, acc, emits => ⟨acc, emits⟩
  | chunk :: chunks, buf, acc, emits =>
    let r := innerLoop P (buf ++ chunk) acc emits
    outerLoop P chunks r.buffer r.acc r.emits

/-- The whole stream consumer of lines 141-174: empty buffer, empty
accumulator, no snapshots yet. -/
def processStream (P : JsonOracle) (chunks : List Str) : StreamResult :=
  outerLoop P chunks [] [] []

/-- Fuel-indexed outer loop: every inner pass runs on the same fuel `m`;
`none` propagates an inner fuel exhaustion. -/
def outerF (P : JsonOracle) (m : Nat) : List Str → Str → Str → List Str → Option StreamResult
  | [], _, acc, emits => some ⟨acc, emits⟩
  | chunk :: chunks, buf, acc, emits =>
    match innerF P m (buf ++ chunk) acc emits with
    | none => none
    | some r => outerF P m chunks r.buffer r.acc r.emits

/-- Fuel-indexed stream consumer. -/
def processStreamF (P : JsonOracle) (m : Nat) (chunks : List Str) : Option StreamResult :=
  outerF P m chunks [] [] []

/-- A well-formed `data: ` line as one stream frame: the prefix, the
payload and the terminating line feed. -/
def mkDataLine (p : Str) : Str := dataTag ++ p ++ ['\n']

/-- The terminal frame `data: [DONE]` with its line feed. -/
def doneLine : Str := dataTag ++ doneStr ++ ['\n']

/-- Concatenation of a list of strings, in order. -/
def concatL (l : List Str) : Str := l.foldr (· ++ ·) []

/-- The successive accumulator snapshots produced by accepting the
deltas of `prs` (second components) starting from accumulator `acc`. -/
def snapshots (acc : Str) : List (Str × Str) → List Str
  | [] => []
  | pr :: t => (acc ++ pr.2) :: snapshots (acc ++ pr.2) t

/-- A payload/delta pair is well formed for oracle `P` when the payload
is a single line (no line feed, no carriage return), is not the
`[DONE]` sentinel, and parses to the non-empty content delta. -/
def wellFormedPair (P : JsonOracle) (pr : Str × Str) : Prop :=
  '\n' ∉ pr.1 ∧ '\r' ∉ pr.1 ∧ trimL pr.1 ≠ doneStr ∧
    P (trimL pr.1) = .ok (some pr.2) ∧ pr.2 ≠ []

instance {E A : Type} [DecidableEq E] [DecidableEq A] : DecidableEq (Except E A) :=
  fun a b =>
    match a, b with
    | .error e, .error f =>
      if h : e = f then isTrue (by rw [h]) else isFalse (by simp [h])
    | .error _, .ok _ => isFalse (by simp)
    | .ok _, .error _ => isFalse (by simp)
    | .ok x, .ok y =>
      if h : x = y then isTrue (by rw [h]) else isFalse (by simp [h])

instance (P : JsonOracle) (pr : Str × Str) : Decidable (wellFormedPair P pr) := by
  unfold wellFormedPair
  infer_instance

/-- The final chunk list of a complete well-formed stream: one chunk per
`data:` frame, then the `data: [DONE]` frame. -/
def framesOf (prs : List (Str × Str)) : List Str :=
  prs.map (fun pr => mkDataLine pr.1) ++ [doneLine]

/-- Fuel-indexed transport line splitter: the inner loop of lines
151-155 restricted to its line-extraction part (the transport layer of
the stream consumer): repeatedly split the buffer at its first line
feed, stripping one trailing carriage return per extracted line, until
no line feed remains; returns the extracted lines and the unterminated
remainder. -/
def breakF : Nat → Str → Option (List Str × Str)
  | 0, _ => none
  | n + 1, s =>
    match findNewline s with
    | none => some ([], s)
    | some (l, r) => (breakF n r).map (fun p => (stripCR l :: p.1, p.2))

/-- Total transport line splitter (fuel `s.length + 1` is sufficient by
`breakF_adequate`). -/
def breakLines (s : Str) : List Str × Str :=
  (breakF (s.length + 1) s).getD ([], s)

/-- One iteration of the outer chunk loop, transport layer only: append
the decoded chunk to the carry-over buffer and extract every complete
line. -/
def lineReaderStep (st : List Str × Str) (chunk : Str) : List Str × Str :=
  ((st.1 ++ (breakLines (st.2 ++ chunk)).1), (breakLines (st.2 ++ chunk)).2)

/-- The transport line reader over a whole chunk sequence: lines
extracted across all chunks, in order; the final unterminated remainder
is discarded (the loop of lines 144-174 never reads it again). -/
def lineReader (chunks : List Str) : List Str :=
  (chunks.foldl lineReaderStep ([], [])).1

/-- Message role, per the `Message` interface of lines 9-12. -/
inductive Role where
  | user
  | assistant
deriving DecidableEq, Repr

/-- A chat message as displayed and persisted. -/
structure Msg where
  role : Role
  content : Str
deriving DecidableEq, Repr

/-- Title derivation of line 73:
`firstMessage.substring(0, 50) + (firstMessage.length > 50 ? '...' : '')`. -/
def deriveTitle (firstMessage : Str) : Str :=
  firstMessage.take 50 ++ (if 50 < firstMessage.length then ['.', '.', '.'] else [])

/-- The toast of line 65, `'Please sign in to save conversations'`. -/
def signInToast : Str := "Please sign in to save conversations".toList

/-- The message of the error thrown at line 136 and toasted at line 182,
`'Failed to get response'`. -/
def transportFailToast : Str := "Failed to get response".toList

/-- Result of `createConversation` (lines 62-88): the returned
conversation id (if any), the toasts raised, the console logs, and the
conversation rows actually inserted (id and title). -/
structure ConvOutcome where
  convId : Option Str
  toasts : List Str
  logs : List Str
  created : List (Str × Str)
deriving DecidableEq, Repr

/-- Embedding of `createConversation` (lines 62-88).  The authenticated
principal (`supabase.auth.getUser`) and the insert outcome are external
collaborators, passed as parameters: with no principal the function
toasts the sign-in notice once and returns `null`; an insert error is
logged and `null` is returned; on success the new row (with the derived
title) exists and its id is returned. -/
def createConversation (auth : Option Str) (convInsert : Except Str Str)
    (firstMessage : Str) : ConvOutcome :=
  match auth with
  | none => ⟨none, [signInToast], [], []⟩
  | some _ =>
    match convInsert with
    | .error e => ⟨none, [], ["Error creating conversation: ".toList ++ e], []⟩
    | .ok cid => ⟨some cid, [], [], [(cid, deriveTitle firstMessage)]⟩

/-- Result of `saveMessage` (lines 90-102): the rows actually written
and the console logs.  The function returns normally in both cases —
an insert error is only logged (lines 99-101), never thrown. -/
structure SaveOutcome where
  rows : List (Str × Role × Str)
  logs : List Str
deriving DecidableEq, Repr

/-- Embedding of `saveMessage` (lines 90-102).  `fails` is the external
insert outcome (store unavailable or write rejected). -/
def saveMessage (fails : Bool) (convId : Str) (role : Role) (content : Str) :
    SaveOutcome :=
  if fails then ⟨[], ["Error saving message".toList]⟩
  else ⟨[(convId, role, content)], []⟩

/-- External collaborators of one `handleSend` turn: the authenticated
principal, the conversation-insert outcome, the two message-insert
outcomes, and the transport (`none` models `!response.ok || !response.body`,
`some chunks` the decoded chunk sequence of the response body). -/
structure TurnEnv where
  auth : Option Str
  convInsert : Except Str Str
  userSaveFails : Bool
  assistantSaveFails : Bool
  transport : Option (List Str)

/-- Observable outcome of one `handleSend` turn (lines 104-186): the
final displayed message list, the component conversation id afterwards,
the toasts raised, the message rows written, the conversation rows
created, and the console logs. -/
structure TurnResult where
  messages : List Msg
  currentConvId : Option Str
  toasts : List Str
  savedRows : List (Str × Role × Str)
  createdConvs : List (Str × Str)
  logs : List Str
deriving DecidableEq, Repr

/-- Embedding of `handleSend` (lines 104-186) for one turn.
Guard of line 105: an all-whitespace input or a pending turn is a
no-op.  Then the trimmed user message is displayed, a conversation is
created lazily when none is current, the user message is saved when a
conversation id exists, and the response stream is consumed; the final
display keeps the last emitted snapshot, and the assistant message is
saved only when a conversation id exists and the accumulator is
non-empty.  A transport failure is caught at the turn boundary and
toasted; save failures are only logged. -/
def handleSend (env : TurnEnv) (P : JsonOracle) (messages : List Msg)
    (currentConvId : Option Str) (isLoading : Bool) (input : Str) : TurnResult :=
  if trimL input = [] ∨ isLoading then
    ⟨messages, currentConvId, [], [], [], []⟩
  else
    let userMessage := trimL input
    let newMessages := messages ++ [⟨Role.user, userMessage⟩]
    let convOut : ConvOutcome :=
      match currentConvId with
      | some cid => ⟨some cid, [], [], []⟩
      | none => createConversation env.auth env.convInsert userMessage
    let convId := convOut.convId
    let userSave : SaveOutcome :=
      match convId with
      | some cid => saveMessage env.userSaveFails cid Role.user userMessage
      | none => ⟨[], []⟩
    match env.transport with
    | none =>
      ⟨newMessages, convId, convOut.toasts ++ [transportFailToast],
        userSave.rows, convOut.created, convOut.logs ++ userSave.logs⟩
    | some chunks =>
      let r := processStream P chunks
      let finalMessages : List Msg :=
        match r.emits.getLast? with
        | none => newMessages
        | some last => newMessages ++ [⟨Role.assistant, last⟩]
      let assistantSave : SaveOutcome :=
        match convId with
        | some cid =>
          if r.assistantMessage ≠ [] then
            saveMessage env.assistantSaveFails cid Role.assistant r.assistantMessage
          else ⟨[], []⟩
        | none => ⟨[], []⟩
      ⟨finalMessages, convId, convOut.toasts,
        userSave.rows ++ assistantSave.rows, convOut.created,
        convOut.logs ++ userSave.logs ++ assistantSave.logs⟩

/-- Concrete oracle used to instantiate witnesses: payload `a` and `b`
parse to the deltas `He` and `llo`, payload `z` throws, payload `e`
parses to an empty content, anything else parses with no content
field. -/
def sampleOracle : JsonOracle := fun s =>
  if s = ['a'] then .ok (some "He".toList)
  else if s = ['b'] then .ok (some "llo".toList)
  else if s = ['z'] then .error ()
  else if s = ['e'] then .ok (some [])
  else .ok none

theorem findNewline_length {s l r : Str} (h : findNewline s = some (l, r)) :
    r.length < s.length := by
  induction s generalizing l r with
  | nil => simp [findNewline] at h
  | cons c cs ih =>
    by_cases hc : c = '\n'
    · simp [findNewline, hc] at h
      simp [← h.2]
    · rw [findNewline, if_neg hc] at h
      cases hfind : findNewline cs with
      | none => rw [hfind] at h; exact absurd h (by simp)
      | some p =>
        rw [hfind] at h
        cases p with
        | mk l0 r0 =>
          simp at h
          have := ih hfind
          simp [← h.2]
          omega

theorem findNewline_eq_some {s l r : Str} (h : findNewline s = some (l, r)) :
    s = l ++ '\n' :: r ∧ '\n' ∉ l := by
  induction s generalizing l r with
  | nil => simp [findNewline] at h
  | cons c cs ih =>
    by_cases hc : c = '\n'
    · simp [findNewline, hc] at h
      simp [hc, h.1, ← h.2]
    · rw [findNewline, if_neg hc] at h
      cases hfind : findNewline cs with
      | none => rw [hfind] at h; exact absurd h (by simp)
      | some p =>
        rw [hfind] at h
        cases p with
        | mk l0 r0 =>
          simp at h
          obtain ⟨h1, h2⟩ := ih hfind
          constructor
          · simp [← h.1, ← h.2, h1]
          · simp [← h.1]
            exact ⟨fun he => hc he.symm, h2⟩

theorem findNewline_prepend {l : Str} (r : Str) (h : '\n' ∉ l) :
    findNewline (l ++ '\n' :: r) = some (l, r) := by
  induction l with
  | nil => simp [findNewline]
  | cons c cs ih =>
    simp at h
    rw [List.cons_append, findNewline, if_neg (fun he => h.1 he.symm), ih h.2]

theorem findNewline_eq_none {s : Str} (h : findNewline s = none) : '\n' ∉ s := by
  induction s with
  | nil => simp
  | cons c cs ih =>
    by_cases hc : c = '\n'
    · simp [findNewline, hc] at h
    · rw [findNewline, if_neg hc] at h
      cases hfind : findNewline cs with
      | none => simp [Ne.symm hc, ih hfind]
      | some p => rw [hfind] at h; cases p; simp at h

theorem findNewline_append_none {a : Str} (b : Str) (h : findNewline a = none) :
    findNewline (a ++ b) =
      (findNewline b).map (fun p => (a ++ p.1, p.2)) := by
  induction a with
  | nil => simp [Option.map_id]
  | cons c cs ih =>
    by_cases hc : c = '\n'
    · simp [findNewline, hc] at h
    · rw [findNewline, if_neg hc] at h
      cases hfind : findNewline cs with
      | none =>
        rw [List.cons_append, findNewline, if_neg hc, ih hfind]
        cases findNewline b with
        | none => simp
        | some p => cases p; simp
      | some p => rw [hfind] at h; cases p; simp at h

theorem innerF_fuel {P : JsonOracle} :
    ∀ {n m : Nat} {buf acc : Str} {emits : List Str},
      buf.length < n → buf.length < m →
      innerF P n buf acc emits = innerF P m buf acc emits := by
  intro n
  induction n with
  | zero => intro m buf acc emits hn; omega
  | succ n ih =>
    intro m buf acc emits hn hm
    cases m with
    | zero => omega
    | succ m =>
      rw [innerF, innerF]
      cases hfind : findNewline buf with
      | none => rfl
      | some p =>
        cases p with
        | mk line0 rest =>
          have hlt := findNewline_length hfind
          have h1 : rest.length < n := by omega
          have h2 : rest.length < m := by omega
          simp only []
          by_cases hc : startsWithL colonTag (stripCR line0)
          · simp [hc, ih h1 h2]
          · by_cases hb : trimL (stripCR line0) = []
            · simp [hc, hb, ih h1 h2]
            · by_cases hd : startsWithL dataTag (stripCR line0)
              · simp only [hc, hb, hd, if_true, if_false, Bool.false_eq_true]
                by_cases hdone : trimL ((stripCR line0).drop 6) = doneStr
                · simp [hdone]
                · simp only [hdone, if_false]
                  cases P (trimL ((stripCR line0).drop 6)) with
                  | error e => rfl
                  | ok o =>
                    cases o with
                    | none => exact ih h1 h2
                    | some c =>
                      by_cases hcnil : c = []
                      · simp [hcnil, ih h1 h2]
                      · simp [hcnil, ih h1 h2]
              · simp [hc, hb, hd, ih h1 h2]

theorem innerF_adequate {P : JsonOracle} :
    ∀ {n : Nat} {buf acc : Str} {emits : List Str},
      buf.length < n →
      innerF P n buf acc emits = some (innerLoop P buf acc emits) := by
  intro n
  induction n with
  | zero => intro buf acc emits hn; omega
  | succ n ih =>
    intro buf acc emits hn
    rw [innerLoop, ← innerF_fuel hn (Nat.lt_succ_self buf.length)]
    rw [innerF]
    cases hfind : findNewline buf with
    | none => rfl
    | some p =>
      cases p with
      | mk line0 rest =>
        have hlt := findNewline_length hfind
        have h1 : rest.length < n := by omega
        simp only []
        by_cases hc : startsWithL colonTag (stripCR line0)
        · simp [hc, ih h1, innerLoop]
        · by_cases hb : trimL (stripCR line0) = []
          · simp [hc, hb, ih h1, innerLoop]
          · by_cases hd : startsWithL dataTag (stripCR line0)
            · simp only [hc, hb, hd, if_true, if_false, Bool.false_eq_true]
              by_cases hdone : trimL ((stripCR line0).drop 6) = doneStr
              · simp [hdone]
              · simp only [hdone, if_false]
                cases P (trimL ((stripCR line0).drop 6)) with
                | error e => rfl
                | ok o =>
                  cases o with
                  | none => simp [ih h1, innerLoop]
                  | some c =>
                    by_cases hcnil : c = []
                    · simp [hcnil, ih h1, innerLoop]
                    · simp [hcnil, ih h1, innerLoop]
            · simp [hc, hb, hd, ih h1, innerLoop]

theorem innerLoop_exhausted {buf : Str} (P : JsonOracle) (acc : Str) (emits : List Str)
    (hfind : findNewline buf = none) :
    innerLoop P buf acc emits = ⟨buf, acc, emits, .exhausted⟩ := by
  rw [innerLoop]
  simp only [innerF, hfind, Option.getD_some]

theorem rest_length_lt (l rest : Str) :
    rest.length < (l ++ '\n' :: rest).length := by
  simp [List.length_append]
  omega

theorem innerLoop_skip_colon (P : JsonOracle) {l : Str} (rest acc : Str) (emits : List Str)
    (hnl : '\n' ∉ l) (hc : startsWithL colonTag (stripCR l) = true) :
    innerLoop P (l ++ '\n' :: rest) acc emits = innerLoop P rest acc emits := by
  rw [innerLoop]
  simp only [innerF, findNewline_prepend rest hnl, hc, if_true]
  rw [innerF_adequate (rest_length_lt l rest), Option.getD_some]

theorem innerLoop_skip_blank (P : JsonOracle) {l : Str} (rest acc : Str) (emits : List Str)
    (hnl : '\n' ∉ l) (hb : trimL (stripCR l) = []) :
    innerLoop P (l ++ '\n' :: rest) acc emits = innerLoop P rest acc emits := by
  rw [innerLoop]
  simp only [innerF, findNewline_prepend rest hnl, hb, if_true]
  by_cases hc : startsWithL colonTag (stripCR l)
  · simp only [hc, if_true]
    rw [innerF_adequate (rest_length_lt l rest), Option.getD_some]
  · simp only [hc, Bool.false_eq_true, if_false, if_true]
    rw [innerF_adequate (rest_length_lt l rest), Option.getD_some]

theorem innerLoop_skip_nondata (P : JsonOracle) {l : Str} (rest acc : Str) (emits : List Str)
    (hnl : '\n' ∉ l) (hc : startsWithL colonTag (stripCR l) = false)
    (hd : startsWithL dataTag (stripCR l) = false) :
    innerLoop P (l ++ '\n' :: rest) acc emits = innerLoop P rest acc emits := by
  rw [innerLoop]
  simp only [innerF, findNewline_prepend rest hnl, hc, hd, Bool.false_eq_true, if_false]
  by_cases hb : trimL (stripCR l) = []
  · simp only [hb, if_true]
    rw [innerF_adequate (rest_length_lt l rest), Option.getD_some]
  · simp only [hb, if_false]
    rw [innerF_adequate (rest_length_lt l rest), Option.getD_some]

theorem innerLoop_done (P : JsonOracle) {l : Str} (rest acc : Str) (emits : List Str)
    (hnl : '\n' ∉ l) (hc : startsWithL colonTag (stripCR l) = false)
    (hb : trimL (stripCR l) ≠ []) (hd : startsWithL dataTag (stripCR l) = true)
    (hdone : trimL ((stripCR l).drop 6) = doneStr) :
    innerLoop P (l ++ '\n' :: rest) acc emits = ⟨rest, acc, emits, .doneSig⟩ := by
  rw [innerLoop]
  simp only [innerF, findNewline_prepend rest hnl, hc, hb, hd, hdone, Bool.false_eq_true,
    if_false, if_true, Option.getD_some]

theorem innerLoop_parse_fail (P : JsonOracle) {l : Str} (rest acc : Str) (emits : List Str)
    (hnl : '\n' ∉ l) (hc : startsWithL colonTag (stripCR l) = false)
    (hb : trimL (stripCR l) ≠ []) (hd : startsWithL dataTag (stripCR l) = true)
    (hdone : trimL ((stripCR l).drop 6) ≠ doneStr)
    (hp : P (trimL ((stripCR l).drop 6)) = .error ()) :
    innerLoop P (l ++ '\n' :: rest) acc emits
      = ⟨stripCR l ++ '\n' :: rest, acc, emits, .parseFail⟩ := by
  rw [innerLoop]
  simp only [innerF, findNewline_prepend rest hnl, hc, hb, hd, hdone, hp, Bool.false_eq_true,
    if_false, if_true, Option.getD_some]

theorem innerLoop_drop_absent (P : JsonOracle) {l : Str} (rest acc : Str) (emits : List Str)
    (hnl : '\n' ∉ l) (hc : startsWithL colonTag (stripCR l) = false)
    (hb : trimL (stripCR l) ≠ []) (hd : startsWithL dataTag (stripCR l) = true)
    (hdone : trimL ((stripCR l).drop 6) ≠ doneStr)
    (hp : P (trimL ((stripCR l).drop 6)) = .ok none) :
    innerLoop P (l ++ '\n' :: rest) acc emits = innerLoop P rest acc emits := by
  rw [innerLoop]
  simp only [innerF, findNewline_prepend rest hnl, hc, hb, hd, hdone, hp, Bool.false_eq_true,
    if_false, if_true]
  rw [innerF_adequate (rest_length_lt l rest), Option.getD_some]

theorem innerLoop_drop_empty (P : JsonOracle) {l : Str} (rest acc : Str) (emits : List Str)
    (hnl : '\n' ∉ l) (hc : startsWithL colonTag (stripCR l) = false)
    (hb : trimL (stripCR l) ≠ []) (hd : startsWithL dataTag (stripCR l) = true)
    (hdone : trimL ((stripCR l).drop 6) ≠ doneStr)
    (hp : P (trimL ((stripCR l).drop 6)) = .ok (some [])) :
    innerLoop P (l ++ '\n' :: rest) acc emits = innerLoop P rest acc emits := by
  rw [innerLoop]
  simp only [innerF, findNewline_prepend rest hnl, hc, hb, hd, hdone, hp, Bool.false_eq_true,
    if_false, if_true]
  rw [innerF_adequate (rest_length_lt l rest), Option.getD_some]

theorem innerLoop_accept (P : JsonOracle) {l c : Str} (rest acc : Str) (emits : List Str)
    (hnl : '\n' ∉ l) (hc : startsWithL colonTag (stripCR l) = false)
    (hb : trimL (stripCR l) ≠ []) (hd : startsWithL dataTag (stripCR l) = true)
    (hdone : trimL ((stripCR l).drop 6) ≠ doneStr)
    (hp : P (trimL ((stripCR l).drop 6)) = .ok (some c)) (hcne : c ≠ []) :
    innerLoop P (l ++ '\n' :: rest) acc emits
      = innerLoop P rest (acc ++ c) (emits ++ [acc ++ c]) := by
  rw [innerLoop]
  simp only [innerF, findNewline_prepend rest hnl, hc, hb, hd, hdone, hp, hcne,
    Bool.false_eq_true, if_false, if_true]
  rw [innerF_adequate (rest_length_lt l rest), Option.getD_some]

theorem startsWithL_append_self (a b : Str) : startsWithL a (a ++ b) = true := by
  induction a with
  | nil => rfl
  | cons c cs ih => simp [startsWithL, ih]

theorem nl_not_mem_dataLine {p : Str} (h : '\n' ∉ p) : '\n' ∉ dataTag ++ p := by
  intro hmem
  rcases List.mem_append.mp hmem with h1 | h2
  · revert h1; decide
  · exact h h2

theorem stripCR_dataLine {p : Str} (h : '\r' ∉ p) :
    stripCR (dataTag ++ p) = dataTag ++ p := by
  rw [stripCR, if_neg]
  intro hlast
  by_cases hp : p = []
  · rw [hp] at hlast
    revert hlast; decide
  · rw [List.getLast?_append_of_ne_nil _ hp] at hlast
    exact h (List.mem_of_getLast?_eq_some hlast)

theorem colon_dataLine (p : Str) : startsWithL colonTag (dataTag ++ p) = false := by
  rfl

theorem trim_dataLine_ne (p : Str) : trimL (dataTag ++ p) ≠ [] := by
  intro hnil
  rw [trimL] at hnil
  rw [List.reverse_eq_nil_iff, List.dropWhile_eq_nil_iff] at hnil
  have hd : 'd' ∈ (List.dropWhile isWs (dataTag ++ p)).reverse := by
    rw [List.mem_reverse]
    have : List.dropWhile isWs (dataTag ++ p) = dataTag ++ p := by
      simp [dataTag, List.dropWhile, isWs]
    rw [this]
    simp [dataTag]
  have := hnil 'd' hd
  revert this; decide

theorem dataTag_starts (p : Str) : startsWithL dataTag (dataTag ++ p) = true :=
  startsWithL_append_self dataTag p

theorem drop6_dataLine (p : Str) : (dataTag ++ p).drop 6 = p :=
  List.drop_left' rfl

theorem innerLoop_data_accept (P : JsonOracle) {p c : Str} (rest acc : Str)
    (emits : List Str) (hnl : '\n' ∉ p) (hcr : '\r' ∉ p)
    (hdone : trimL p ≠ doneStr) (hp : P (trimL p) = .ok (some c)) (hcne : c ≠ []) :
    innerLoop P ((dataTag ++ p) ++ '\n' :: rest) acc emits
      = innerLoop P rest (acc ++ c) (emits ++ [acc ++ c]) := by
  refine innerLoop_accept P rest acc emits (nl_not_mem_dataLine hnl) ?_ ?_ ?_ ?_ ?_ hcne
  · rw [stripCR_dataLine hcr]; exact colon_dataLine p
  · rw [stripCR_dataLine hcr]; exact trim_dataLine_ne p
  · rw [stripCR_dataLine hcr]; exact dataTag_starts p
  · rw [stripCR_dataLine hcr, drop6_dataLine]; exact hdone
  · rw [stripCR_dataLine hcr, drop6_dataLine]; exact hp

theorem innerLoop_data_absent (P : JsonOracle) {p : Str} (rest acc : Str)
    (emits : List Str) (hnl : '\n' ∉ p) (hcr : '\r' ∉ p)
    (hdone : trimL p ≠ doneStr) (hp : P (trimL p) = .ok none) :
    innerLoop P ((dataTag ++ p) ++ '\n' :: rest) acc emits
      = innerLoop P rest acc emits := by
  refine innerLoop_drop_absent P rest acc emits (nl_not_mem_dataLine hnl) ?_ ?_ ?_ ?_ ?_
  · rw [stripCR_dataLine hcr]; exact colon_dataLine p
  · rw [stripCR_dataLine hcr]; exact trim_dataLine_ne p
  · rw [stripCR_dataLine hcr]; exact dataTag_starts p
  · rw [stripCR_dataLine hcr, drop6_dataLine]; exact hdone
  · rw [stripCR_dataLine hcr, drop6_dataLine]; exact hp

theorem innerLoop_data_empty (P : JsonOracle) {p : Str} (rest acc : Str)
    (emits : List Str) (hnl : '\n' ∉ p) (hcr : '\r' ∉ p)
    (hdone : trimL p ≠ doneStr) (hp : P (trimL p) = .ok (some [])) :
    innerLoop P ((dataTag ++ p) ++ '\n' :: rest) acc emits
      = innerLoop P rest acc emits := by
  refine innerLoop_drop_empty P rest acc emits (nl_not_mem_dataLine hnl) ?_ ?_ ?_ ?_ ?_
  · rw [stripCR_dataLine hcr]; exact colon_dataLine p
  · rw [stripCR_dataLine hcr]; exact trim_dataLine_ne p
  · rw [stripCR_dataLine hcr]; exact dataTag_starts p
  · rw [stripCR_dataLine hcr, drop6_dataLine]; exact hdone
  · rw [stripCR_dataLine hcr, drop6_dataLine]; exact hp

theorem innerLoop_data_fail (P : JsonOracle) {p : Str} (rest acc : Str)
    (emits : List Str) (hnl : '\n' ∉ p) (hcr : '\r' ∉ p)
    (hdone : trimL p ≠ doneStr) (hp : P (trimL p) = .error ()) :
    innerLoop P ((dataTag ++ p) ++ '\n' :: rest) acc emits
      = ⟨(dataTag ++ p) ++ '\n' :: rest, acc, emits, .parseFail⟩ := by
  have h := innerLoop_parse_fail P rest acc emits (nl_not_mem_dataLine hnl)
    (by rw [stripCR_dataLine hcr]; exact colon_dataLine p)
    (by rw [stripCR_dataLine hcr]; exact trim_dataLine_ne p)
    (by rw [stripCR_dataLine hcr]; exact dataTag_starts p)
    (by rw [stripCR_dataLine hcr, drop6_dataLine]; exact hdone)
    (by rw [stripCR_dataLine hcr, drop6_dataLine]; exact hp)
  rw [h, stripCR_dataLine hcr]

theorem innerLoop_doneLine (P : JsonOracle) (rest acc : Str) (emits : List Str) :
    innerLoop P ((dataTag ++ doneStr) ++ '\n' :: rest) acc emits
      = ⟨rest, acc, emits, .doneSig⟩ := by
  refine innerLoop_done P rest acc emits ?_ ?_ ?_ ?_ ?_
  · decide
  · rfl
  · decide
  · rfl
  · rfl

theorem innerLoop_single_accept (P : JsonOracle) {p c : Str} (acc : Str)
    (emits : List Str) (h : wellFormedPair P (p, c)) :
    innerLoop P (mkDataLine p) acc emits
      = ⟨[], acc ++ c, emits ++ [acc ++ c], .exhausted⟩ := by
  obtain ⟨hnl, hcr, hdone, hp, hcne⟩ := h
  have hline : mkDataLine p = (dataTag ++ p) ++ '\n' :: [] := by
    simp [mkDataLine]
  rw [hline, innerLoop_data_accept P [] acc emits hnl hcr hdone hp hcne,
    innerLoop_exhausted P (acc ++ c) (emits ++ [acc ++ c])
      (show findNewline [] = none from rfl)]

theorem outerLoop_accepts (P : JsonOracle) (prs : List (Str × Str))
    (h : ∀ pr ∈ prs, wellFormedPair P pr) (chunks : List Str) (acc : Str)
    (emits : List Str) :
    outerLoop P (prs.map (fun pr => mkDataLine pr.1) ++ chunks) [] acc emits
      = outerLoop P chunks []
          (acc ++ concatL (prs.map Prod.snd)) (emits ++ snapshots acc prs) := by
  induction prs generalizing acc emits with
  | nil => simp [concatL, snapshots]
  | cons pr t ih =>
    cases pr with
    | mk p c =>
      have hwf := h (p, c) (by simp)
      rw [List.map_cons, List.cons_append, outerLoop, List.nil_append,
        innerLoop_single_accept P acc emits hwf]
      rw [ih (fun q hq => h q (by simp [hq]))]
      simp [concatL, snapshots, List.append_assoc]

theorem processStream_wellFormed (P : JsonOracle) (prs : List (Str × Str))
    (h : ∀ pr ∈ prs, wellFormedPair P pr) :
    processStream P (framesOf prs)
      = ⟨concatL (prs.map Prod.snd), snapshots [] prs⟩ := by
  rw [processStream, framesOf, outerLoop_accepts P prs h [doneLine] [] []]
  have hdl : ([] : Str) ++ doneLine = (dataTag ++ doneStr) ++ '\n' :: [] := by
    simp [doneLine]
  rw [outerLoop, hdl, innerLoop_doneLine P [] _ _]
  simp [outerLoop]

theorem breakF_fuel :
    ∀ {n m : Nat} {s : Str}, s.length < n → s.length < m →
      breakF n s = breakF m s := by
  intro n
  induction n with
  | zero => intro m s hn; omega
  | succ n ih =>
    intro m s hn hm
    cases m with
    | zero => omega
    | succ m =>
      rw [breakF, breakF]
      cases hfind : findNewline s with
      | none => rfl
      | some p =>
        cases p with
        | mk l r =>
          have hlt := findNewline_length hfind
          have h1 : r.length < n := by omega
          have h2 : r.length < m := by omega
          dsimp only
          rw [ih h1 h2]

theorem breakF_adequate :
    ∀ {n : Nat} {s : Str}, s.length < n → breakF n s = some (breakLines s) := by
  intro n
  induction n with
  | zero => intro s hn; omega
  | succ n ih =>
    intro s hn
    rw [breakLines, ← breakF_fuel hn (Nat.lt_succ_self s.length)]
    rw [breakF]
    cases hfind : findNewline s with
    | none => rfl
    | some p =>
      cases p with
      | mk l r =>
        have hlt := findNewline_length hfind
        have h1 : r.length < n := by omega
        dsimp only
        rw [ih h1]
        simp

theorem breakLines_no_newline {s : Str} (h : findNewline s = none) :
    breakLines s = ([], s) := by
  rw [breakLines]
  simp only [breakF, h, Option.getD_some]

theorem breakLines_cons {l : Str} (r : Str) (h : '\n' ∉ l) :
    breakLines (l ++ '\n' :: r)
      = (stripCR l :: (breakLines r).1, (breakLines r).2) := by
  rw [breakLines]
  simp only [breakF, findNewline_prepend r h]
  rw [breakF_adequate (rest_length_lt l r)]
  simp

theorem concatL_nil : concatL [] = [] := rfl

theorem concatL_cons (c : Str) (cs : List Str) :
    concatL (c :: cs) = c ++ concatL cs := rfl

theorem breakLines_append :
    ∀ (x y : Str),
      breakLines (x ++ y)
        = ((breakLines x).1 ++ (breakLines ((breakLines x).2 ++ y)).1,
           (breakLines ((breakLines x).2 ++ y)).2) := by
  intro x y
  cases hfind : findNewline x with
  | none =>
    rw [breakLines_no_newline hfind]
    simp
  | some p =>
    cases p with
    | mk l r =>
      obtain ⟨hx, hnl⟩ := findNewline_eq_some hfind
      have hlt : r.length < x.length := findNewline_length hfind
      subst hx
      rw [List.append_assoc, List.cons_append, breakLines_cons (r ++ y) hnl,
        breakLines_cons r hnl]
      rw [breakLines_append r y]
      simp
termination_by x _ => x.length

theorem breakLines_snd :
    ∀ (s : Str), findNewline (breakLines s).2 = none := by
  intro s
  cases hfind : findNewline s with
  | none =>
    rw [breakLines_no_newline hfind]
    exact hfind
  | some p =>
    cases p with
    | mk l r =>
      obtain ⟨hx, hnl⟩ := findNewline_eq_some hfind
      have hlt : r.length < s.length := findNewline_length hfind
      subst hx
      rw [breakLines_cons r hnl]
      exact breakLines_snd r
termination_by s => s.length

theorem lineReader_foldl (chunks : List Str) :
    ∀ (ls : List Str) (rem : Str), findNewline rem = none →
      chunks.foldl lineReaderStep (ls, rem)
        = (ls ++ (breakLines (rem ++ concatL chunks)).1,
           (breakLines (rem ++ concatL chunks)).2) := by
  induction chunks with
  | nil =>
    intro ls rem hrem
    rw [List.foldl_nil, concatL_nil, List.append_nil, breakLines_no_newline hrem]
    simp
  | cons c cs ih =>
    intro ls rem hrem
    rw [List.foldl_cons, lineReaderStep, concatL_cons, ← List.append_assoc,
      breakLines_append (rem ++ c) (concatL cs)]
    rw [ih (ls ++ (breakLines (rem ++ c)).1) (breakLines (rem ++ c)).2
      (breakLines_snd (rem ++ c))]
    simp

/-- The line reader depends only on the concatenation of its chunks: it
equals the canonical splitter applied to the whole text. -/
theorem lineReader_canonical (chunks : List Str) :
    lineReader chunks = (breakLines (concatL chunks)).1 := by
  rw [lineReader, lineReader_foldl chunks [] [] rfl]
  simp

theorem stripCR_length_le (s : Str) : (stripCR s).length ≤ s.length := by
  rw [stripCR]
  by_cases h : s.getLast? = some '\r'
  · simp [h, List.length_dropLast]
  · simp [h]

theorem innerF_buffer_le {P : JsonOracle} :
    ∀ {n : Nat} {buf acc : Str} {emits : List Str} {r : InnerResult},
      innerF P n buf acc emits = some r → r.buffer.length ≤ buf.length := by
  intro n
  induction n with
  | zero => intro buf acc emits r h; rw [innerF] at h; exact absurd h (by simp)
  | succ n ih =>
    intro buf acc emits r h
    rw [innerF] at h
    cases hfind : findNewline buf with
    | none =>
      rw [hfind] at h
      simp at h
      rw [← h]
    | some p =>
      cases p with
      | mk line0 rest =>
        rw [hfind] at h
        obtain ⟨hbuf, _⟩ := findNewline_eq_some hfind
        have hrest : rest.length + 1 ≤ buf.length := findNewline_length hfind
        dsimp only at h
        by_cases hc : startsWithL colonTag (stripCR line0)
        · rw [if_pos hc] at h
          exact le_trans (ih h) (by omega)
        · rw [if_neg (by simp [hc])] at h
          by_cases hb : trimL (stripCR line0) = []
          · rw [if_pos hb] at h
            exact le_trans (ih h) (by omega)
          · rw [if_neg hb] at h
            by_cases hd : startsWithL dataTag (stripCR line0)
            · rw [if_pos hd] at h
              by_cases hdone : trimL ((stripCR line0).drop 6) = doneStr
              · rw [if_pos hdone] at h
                simp at h
                rw [← h]
                dsimp only
                omega
              · rw [if_neg hdone] at h
                cases hp : P (trimL ((stripCR line0).drop 6)) with
                | error e =>
                  rw [hp] at h
                  simp at h
                  rw [← h]
                  have hl : (stripCR line0).length ≤ line0.length :=
                    stripCR_length_le line0
                  have hlen : buf.length = line0.length + 1 + rest.length := by
                    rw [hbuf]
                    simp [List.length_append]
                    omega
                  simp [List.length_append]
                  omega
                | ok o =>
                  rw [hp] at h
                  cases o with
                  | none => exact le_trans (ih h) (by omega)
                  | some c =>
                    dsimp only at h
                    by_cases hcnil : c = []
                    · rw [if_pos hcnil] at h
                      exact le_trans (ih h) (by omega)
                    · rw [if_neg hcnil] at h
                      exact le_trans (ih h) (by omega)
            · rw [if_neg (by simp [hd])] at h
              exact le_trans (ih h) (by omega)

theorem innerLoop_buffer_le (P : JsonOracle) (buf acc : Str) (emits : List Str) :
    (innerLoop P buf acc emits).buffer.length ≤ buf.length :=
  innerF_buffer_le (innerF_adequate (Nat.lt_succ_self buf.length))

theorem outerF_adequate {P : JsonOracle} :
    ∀ {chunks : List Str} {buf acc : Str} {emits : List Str} {m : Nat},
      buf.length + (concatL chunks).length < m →
      outerF P m chunks buf acc emits = some (outerLoop P chunks buf acc emits) := by
  intro chunks
  induction chunks with
  | nil => intro buf acc emits m hm; rfl
  | cons c cs ih =>
    intro buf acc emits m hm
    rw [concatL_cons, List.length_append] at hm
    have hin : (buf ++ c).length < m := by
      rw [List.length_append]
      omega
    rw [outerF, innerF_adequate hin]
    dsimp only
    rw [outerLoop]
    refine ih ?_
    have hble := innerLoop_buffer_le P (buf ++ c) acc emits
    rw [List.length_append] at hble
    omega

/-- Adequate fuel for the whole nested loop: one more than the total
length of the stream. -/
theorem processStreamF_adequate (P : JsonOracle) (chunks : List Str) {m : Nat}
    (hm : (concatL chunks).length < m) :
    processStreamF P m chunks = some (processStream P chunks) := by
  rw [processStreamF, processStream]
  exact outerF_adequate (by simpa using hm)

/-- Claim C1: for every stream of N well-formed `data: ` lines, each
carrying a non-empty content delta, followed by a `data: [DONE]` line,
the assembler's final accumulated assistant message equals the
concatenation of the N deltas in arrival order — no byte loss, no
duplication. -/
theorem claim1_assembler_concat (P : JsonOracle) (prs : List (Str × Str))
    (h : ∀ pr ∈ prs, wellFormedPair P pr) :
    (processStream P (framesOf prs)).assistantMessage
      = concatL (prs.map Prod.snd) := by
  rw [processStream_wellFormed P prs h]

/-- Witness for C1: two frames with deltas `He` and `llo` assemble to
`Hello`. -/
theorem claim1_witness :
    (processStream sampleOracle
        (framesOf [(['a'], "He".toList), (['b'], "llo".toList)])).assistantMessage
      = "Hello".toList :=
  (claim1_assembler_concat sampleOracle
    [(['a'], "He".toList), (['b'], "llo".toList)] (by decide)).trans (by decide)

/-- Claim C2: the line reader is chunk-boundary invariant — any two
chunkings of the same text yield the same ordered line sequence — and
it equals the canonical splitter on the concatenated text (split at
line feeds, strip one trailing carriage return per line, discard the
unterminated remainder). -/
theorem claim2_chunk_invariance (cs ds : List Str) (h : concatL cs = concatL ds) :
    lineReader cs = lineReader ds
    ∧ lineReader cs = (breakLines (concatL cs)).1 := by
  refine ⟨?_, lineReader_canonical cs⟩
  rw [lineReader_canonical, lineReader_canonical, h]

/-- Witness for C2 at two different chunkings of `"ab\r\ncd\ne"`. -/
theorem claim2_witness :
    lineReader ["ab\r\nc".toList, "d\ne".toList]
      = lineReader ["ab\r".toList, "\ncd\n".toList, "e".toList] :=
  (claim2_chunk_invariance ["ab\r\nc".toList, "d\ne".toList]
    ["ab\r".toList, "\ncd\n".toList, "e".toList] (by decide)).1

/-- Counterexample to C3 as stated: the `[DONE]` `break` of line 160
exits only the inner line loop.  With the stream
`["data: [DONE]\ndata: a\n", ":keepalive\n"]` the sentinel is consumed
while processing the first chunk (nothing after it is processed in that
pass, first conjunct), but when the second chunk arrives the buffered
`data: a` line after `[DONE]` is processed and its delta `He` enters
the transcript (second conjunct), contradicting the claim that no
later line can contribute a delta. -/
theorem claim3_counterexample :
    (processStream sampleOracle
        ["data: [DONE]\ndata: a\n".toList]).assistantMessage = []
    ∧ (processStream sampleOracle
        ["data: [DONE]\ndata: a\n".toList, ":keepalive\n".toList]).assistantMessage
      = "He".toList := by
  constructor
  · decide
  · decide

/-- Claim C3 (amended): once a `[DONE]` data line is consumed, the
current buffer pass stops immediately — the accumulator and emitted
snapshots are unchanged and everything after the sentinel is left
unprocessed in the carry-over buffer — and if the stream then ends, the
leftover is discarded and never contributes.  Lines after `[DONE]` can
only be processed if a further chunk arrives. -/
theorem claim3_done_stops_pass (P : JsonOracle) (rest acc : Str) (emits : List Str) :
    innerLoop P (doneLine ++ rest) acc emits = ⟨rest, acc, emits, .doneSig⟩
    ∧ outerLoop P [] rest acc emits = ⟨acc, emits⟩ := by
  constructor
  · have h : doneLine ++ rest = (dataTag ++ doneStr) ++ '\n' :: rest := by
      simp [doneLine]
    rw [h, innerLoop_doneLine]
  · rfl

/-- Claim C4: the title of a new conversation is the seed message
verbatim when it has at most 50 characters, and its first 50 characters
followed by `...` when longer. -/
theorem claim4_title (m : Str) :
    (m.length ≤ 50 → deriveTitle m = m)
    ∧ (50 < m.length → deriveTitle m = m.take 50 ++ ['.', '.', '.']) := by
  constructor
  · intro h
    rw [deriveTitle, if_neg (by omega), List.append_nil, List.take_of_length_le h]
  · intro h
    rw [deriveTitle, if_pos h]

/-- Witness for C4: `Hello` stays verbatim; sixty `x` characters become
fifty `x` characters plus `...`. -/
theorem claim4_witness :
    deriveTitle "Hello".toList = "Hello".toList
    ∧ deriveTitle (List.replicate 60 'x')
        = List.replicate 50 'x' ++ ['.', '.', '.'] :=
  ⟨(claim4_title "Hello".toList).1 (by decide),
   ((claim4_title (List.replicate 60 'x')).2 (by decide)).trans (by decide)⟩

/-- Claim C5: when a `data: ` payload fails to parse, the line is
pushed back onto the carry-over buffer with a re-inserted line feed —
the buffer is exactly what it was before the line was extracted, so
nothing is discarded and the text can recombine with subsequent input —
the accumulator and snapshots are untouched, and the failure is never
surfaced to the user: the toasts of a turn do not depend on the parse
oracle at all. -/
theorem claim5_parse_failure (P : JsonOracle) {p : Str} (rest acc : Str)
    (emits : List Str) (hnl : '\n' ∉ p) (hcr : '\r' ∉ p)
    (hdone : trimL p ≠ doneStr) (hp : P (trimL p) = .error ()) :
    innerLoop P ((dataTag ++ p) ++ '\n' :: rest) acc emits
      = ⟨(dataTag ++ p) ++ '\n' :: rest, acc, emits, .parseFail⟩
    ∧ ∀ (Q : JsonOracle) (env : TurnEnv) (messages : List Msg)
        (conv : Option Str) (ld : Bool) (input : Str),
        (handleSend env P messages conv ld input).toasts
          = (handleSend env Q messages conv ld input).toasts := by
  refine ⟨innerLoop_data_fail P rest acc emits hnl hcr hdone hp, ?_⟩
  intro Q env messages conv ld input
  by_cases hg : trimL input = [] ∨ ld
  · simp [handleSend, hg]
  · rw [handleSend, handleSend, if_neg hg, if_neg hg]
    cases env.transport <;> rfl

/-- Witness for C5: payload `z` throws under `sampleOracle`; the buffer
is restored verbatim. -/
theorem claim5_witness :
    innerLoop sampleOracle ((dataTag ++ ['z']) ++ '\n' :: "tail".toList) [] []
      = ⟨(dataTag ++ ['z']) ++ '\n' :: "tail".toList, [], [], .parseFail⟩ :=
  (claim5_parse_failure sampleOracle "tail".toList [] []
    (by decide) (by decide) (by decide) (by decide)).1

/-- Claim C6: if zero content deltas are accepted before the stream
completes (the accumulator is still empty), no assistant message is
persisted for the turn — only the user row is written — and this is a
silent no-op: no toast is raised and nothing is logged. -/
theorem claim6_zero_deltas_no_persist (env : TurnEnv) (P : JsonOracle)
    (messages : List Msg) (cid : Str) (input : Str) (chunks : List Str)
    (htr : env.transport = some chunks) (hin : trimL input ≠ [])
    (hus : env.userSaveFails = false)
    (hacc : (processStream P chunks).assistantMessage = []) :
    (handleSend env P messages (some cid) false input).savedRows
        = [(cid, Role.user, trimL input)]
    ∧ (handleSend env P messages (some cid) false input).toasts = []
    ∧ (handleSend env P messages (some cid) false input).logs = [] := by
  simp [handleSend, hin, htr, hus, saveMessage, hacc]

/-- Witness for C6: a stream holding only a keepalive comment line
yields no deltas; only the user message row is written. -/
theorem claim6_witness :
    (handleSend ⟨some "u".toList, .ok "c1".toList, false, false,
        some [":ka\n".toList]⟩ sampleOracle [] (some "c1".toList) false
        "hi".toList).savedRows
      = [("c1".toList, Role.user, "hi".toList)] :=
  (claim6_zero_deltas_no_persist ⟨some "u".toList, .ok "c1".toList, false, false,
    some [":ka\n".toList]⟩ sampleOracle [] "c1".toList "hi".toList
    [":ka\n".toList] rfl (by decide) rfl (by decide)).1

/-- Claim C7: a persistence failure on message append is logged and
swallowed inside the append operation (it returns normally, writes no
row, logs the error), so a failed save does not interrupt the live
turn: the displayed final assistant snapshot and the toasts are the
same as in a turn whose saves succeed. -/
theorem claim7_save_failure_isolated (auth : Option Str) (convIns : Except Str Str)
    (b1 b2 : Bool) (P : JsonOracle) (messages : List Msg) (conv : Option Str)
    (input : Str) (chunks : List Str) (hin : trimL input ≠ []) (last : Str)
    (hlast : (processStream P chunks).emits.getLast? = some last) :
    (handleSend ⟨auth, convIns, b1, b2, some chunks⟩ P messages conv false
        input).messages
      = (messages ++ [⟨Role.user, trimL input⟩]) ++ [⟨Role.assistant, last⟩]
    ∧ (handleSend ⟨auth, convIns, b1, b2, some chunks⟩ P messages conv false
        input).toasts
      = (handleSend ⟨auth, convIns, false, false, some chunks⟩ P messages conv
          false input).toasts
    ∧ (∀ (cid : Str) (role : Role) (content : Str),
        (saveMessage true cid role content).rows = []
        ∧ (saveMessage true cid role content).logs ≠ []) := by
  refine ⟨?_, ?_, ?_⟩
  · rw [handleSend, if_neg (by simp [hin])]
    simp [hlast]
  · rw [handleSend, handleSend, if_neg (by simp [hin]), if_neg (by simp [hin])]
  · intro cid role content
    simp [saveMessage]

/-- Witness for C7: with both saves failing, the turn still displays
the assembled snapshot `He`. -/
theorem claim7_witness :
    (handleSend ⟨some "u".toList, .ok "c1".toList, true, true,
        some ["data: a\ndata: [DONE]\n".toList]⟩ sampleOracle [] none false
        "hi".toList).messages
      = (([] : List Msg) ++ [⟨Role.user, "hi".toList⟩])
          ++ [⟨Role.assistant, "He".toList⟩] :=
  (claim7_save_failure_isolated (some "u".toList) (.ok "c1".toList) true true
    sampleOracle [] none "hi".toList ["data: a\ndata: [DONE]\n".toList]
    (by decide) "He".toList (by decide)).1

/-- Claim C8: with no authenticated principal, conversation creation
returns no identifier, no row is persisted and no conversation is
created, the user is informed exactly once in the turn that saving
requires sign-in, and the chat turn still proceeds in memory-only
mode: the displayed messages equal those of the same turn run with an
authenticated principal. -/
theorem claim8_unauthenticated (convIns : Except Str Str) (b1 b2 : Bool)
    (P : JsonOracle) (messages : List Msg) (input : Str) (chunks : List Str)
    (hin : trimL input ≠ []) :
    (handleSend ⟨none, convIns, b1, b2, some chunks⟩ P messages none false
        input).currentConvId = none
    ∧ (handleSend ⟨none, convIns, b1, b2, some chunks⟩ P messages none false
        input).savedRows = []
    ∧ (handleSend ⟨none, convIns, b1, b2, some chunks⟩ P messages none false
        input).createdConvs = []
    ∧ (handleSend ⟨none, convIns, b1, b2, some chunks⟩ P messages none false
        input).toasts = [signInToast]
    ∧ ∀ (u cid : Str),
        (handleSend ⟨none, convIns, b1, b2, some chunks⟩ P messages none false
            input).messages
          = (handleSend ⟨some u, .ok cid, b1, b2, some chunks⟩ P messages none
              false input).messages := by
  refine ⟨?_, ?_, ?_, ?_, ?_⟩
  · rw [handleSend, if_neg (by simp [hin])]
    simp [createConversation]
  · rw [handleSend, if_neg (by simp [hin])]
    simp [createConversation]
  · rw [handleSend, if_neg (by simp [hin])]
    simp [createConversation]
  · rw [handleSend, if_neg (by simp [hin])]
    simp [createConversation]
  · intro u cid
    rw [handleSend, handleSend, if_neg (by simp [hin]), if_neg (by simp [hin])]

/-- Witness for C8: a signed-out turn writes nothing, toasts the
sign-in notice once, and returns no identifier. -/
theorem claim8_witness :
    (handleSend ⟨none, .error "no auth".toList, false, false,
        some ["data: a\ndata: [DONE]\n".toList]⟩ sampleOracle [] none false
        "hi".toList).toasts = [signInToast] :=
  (claim8_unauthenticated (.error "no auth".toList) false false sampleOracle []
    "hi".toList ["data: a\ndata: [DONE]\n".toList] (by decide)).2.2.2.1

/-- Claim C9: a `data: ` line whose payload parses successfully but
whose extracted content is absent or empty is silently dropped: the
pass continues with the rest of the buffer with the same accumulator
and the same emitted snapshots — nothing is pushed back and no error
path is taken. -/
theorem claim9_empty_delta_dropped (P : JsonOracle) {p : Str} (rest acc : Str)
    (emits : List Str) (hnl : '\n' ∉ p) (hcr : '\r' ∉ p)
    (hdone : trimL p ≠ doneStr)
    (hp : P (trimL p) = .ok none ∨ P (trimL p) = .ok (some [])) :
    innerLoop P ((dataTag ++ p) ++ '\n' :: rest) acc emits
      = innerLoop P rest acc emits := by
  rcases hp with hp | hp
  · exact innerLoop_data_absent P rest acc emits hnl hcr hdone hp
  · exact innerLoop_data_empty P rest acc emits hnl hcr hdone hp

/-- Witness for C9: payload `e` parses to an empty content under
`sampleOracle` and the frame is dropped. -/
theorem claim9_witness :
    innerLoop sampleOracle ((dataTag ++ ['e']) ++ '\n' :: []) ['H'] ["H".toList]
      = innerLoop sampleOracle [] ['H'] ["H".toList] :=
  claim9_empty_delta_dropped sampleOracle [] ['H'] ["H".toList]
    (by decide) (by decide) (by decide) (Or.inr (by decide))

/-- Claim C10: the nested line-processing loop terminates on every
finite chunk sequence, parse-failure push-back included: fuel one
larger than the total stream length is enough for the fuel-indexed
loop to finish and agree with the total model. -/
theorem claim10_termination (P : JsonOracle) (chunks : List Str) (k : Nat)
    (hk : (concatL chunks).length < k) :
    processStreamF P k chunks = some (processStream P chunks) :=
  processStreamF_adequate P chunks hk

/-- Witness for C10 on a stream whose only data line fails to parse
(exercising the push-back path). -/
theorem claim10_witness :
    processStreamF sampleOracle 20 ["data: z\n".toList, "tail".toList]
      = some (processStream sampleOracle ["data: z\n".toList, "tail".toList]) :=
  claim10_termination sampleOracle ["data: z\n".toList, "tail".toList] 20
    (by decide)

end JusticePath
